import Mathlib

/-!
Shallow embedding of the dustat disk-usage engine (src/du.rs, src/du/st.rs,
src/du/mt.rs, src/util.rs) and proofs about it.

Modelling conventions:
* `NodeId` in the Rust source wraps `NonZero<usize>` storing `index + 1`
  purely as a niche optimisation; semantically it is the arena index, so we
  model ids as plain `Nat` (`NodeId::ROOT` is index 0).
* Counters are Rust `u32`/`u64` added without overflow checks; the design
  documents overflow as out of scope (a debug build panics before wrapping),
  so counters are modelled as `Nat`.
* The filesystem is abstracted as a finite tree `Fs`; the OS boundary calls
  (directory enumeration, per-item metadata) are read off this tree, with
  explicit constructors for a directory whose open fails (`denied`) and an
  item whose metadata read fails (`broken`).
* The ancestor walk in `Stats::push` is a `while` loop; it is embedded with
  explicit fuel (the arena size suffices, proved via the well-formedness
  invariant that parent links strictly decrease except for the root's
  self-loop).
-/

/-- Kind of a filesystem object, from `FileKind` in src/du.rs. -/
inductive FileKind
  | Dir
  | File
  | Other
deriving DecidableEq, Repr

/-- Aggregate record of one node, from `Info` in src/du.rs.
`files`/`dirs`/`other` include the node itself. -/
structure Info where
  name : String
  kind : FileKind
  size : Nat
  files : Nat
  dirs : Nat
  other : Nat
deriving DecidableEq, Repr

/-- `Info::new`: seeds exactly the counter matching `kind` to 1. -/
def Info.new (name : String) (kind : FileKind) (size : Nat) : Info :=
  { name := name
    kind := kind
    size := size
    files := if kind = FileKind.File then 1 else 0
    dirs := if kind = FileKind.Dir then 1 else 0
    other := if kind = FileKind.Other then 1 else 0 }

/-- `Info::default`: empty name, kind `Other`, size 0. -/
def Info.dfl : Info := Info.new "" FileKind.Other 0

/-- `Info::apply`: fold another info's size and counters into this one. -/
def Info.apply (self : Info) (info : Info) : Info :=
  { self with
    size := self.size + info.size
    files := self.files + info.files
    dirs := self.dirs + info.dirs
    other := self.other + info.other }

/-- One produced filesystem entry, from `Entry` in src/du.rs.
Paths are modelled as lists of components. -/
structure Entry where
  parent : Nat
  info : Info
  path : List String
deriving DecidableEq, Repr

/-- A tree node, from `Node` in src/du.rs: aggregate, parent link,
ordered child list. The root's parent is itself. -/
structure Node where
  info : Info
  parent : Nat
  children : List Nat
deriving DecidableEq, Repr

/-- `Node::new`: fresh node with no children. -/
def Node.new (info : Info) (parent : Nat) : Node :=
  { info := info, parent := parent, children := [] }

/-- Default node used as the out-of-bounds fallback of list indexing
(the Rust code panics there; all theorems stay in bounds). -/
def Node.fallback : Node := Node.new Info.dfl 0

/-- The append-only arena, from `Stats` in src/du.rs. -/
structure Stats where
  nodes : List Node
deriving DecidableEq, Repr

/-- Node at index `i` (Rust `Index<NodeId> for Stats`). -/
def nodeAt (nodes : List Node) (i : Nat) : Node :=
  nodes.getD i Node.fallback

/-- Parent index of node `i`. -/
def parentAt (nodes : List Node) (i : Nat) : Nat :=
  (nodeAt nodes i).parent

/-- Replace the info of node `i` (in-place mutation in Rust). -/
def modifyInfo (nodes : List Node) (i : Nat) (f : Info → Info) : List Node :=
  nodes.set i { nodeAt nodes i with info := f (nodeAt nodes i).info }

/-- Replace the child list of node `i`. -/
def modifyChildren (nodes : List Node) (i : Nat) (f : List Nat → List Nat) :
    List Node :=
  nodes.set i { nodeAt nodes i with children := f (nodeAt nodes i).children }

/-- The ancestor-or-self chain visited by the aggregation loop of
`Stats::push`: starts at `p`, follows parent links, ends at the first node
equal to its own parent (the root). Fuel bounds the loop. -/
def chainAux (nodes : List Node) : Nat → Nat → List Nat
  | 0, _ => []
  | fuel + 1, p =>
    if parentAt nodes p = p then [p]
    else p :: chainAux nodes fuel (parentAt nodes p)

/-- Canonical ancestor-or-self chain (fuel `p + 1` always suffices on
well-formed arenas, where parent links strictly decrease). -/
def chainL (nodes : List Node) (p : Nat) : List Nat :=
  chainAux nodes (p + 1) p

/-- Ancestor-or-self chain of node `p` in arena `s`. -/
def Stats.chain (s : Stats) (p : Nat) : List Nat :=
  chainL s.nodes p

/-- The aggregation loop of `Stats::push`:
`while p != self[p].parent then apply at p and step to the parent`, plus the
final apply at the root. The parent pointer is read before the info
mutation; the mutation does not touch parent links, so this matches the
Rust order of operations. -/
def applyChain (info : Info) : Nat → Nat → List Node → List Node
  | 0, _, nodes => nodes
  | fuel + 1, p, nodes =>
    if parentAt nodes p = p then modifyInfo nodes p (Info.apply · info)
    else applyChain info fuel (parentAt nodes p) (modifyInfo nodes p (Info.apply · info))

/-- `Stats::push`: allocate the next sequential id, append it to the
parent's child list, apply `info` along the ancestor chain, append the new
node. Returns the new arena and the new id. -/
def Stats.push (s : Stats) (parent : Nat) (info : Info) : Stats × Nat :=
  let id := s.nodes.length
  let n1 := modifyChildren s.nodes parent (fun c => c ++ [id])
  let n2 := applyChain info n1.length parent n1
  (⟨n2 ++ [Node.new info parent]⟩, id)

/-- `Stats::default` / `Stats::new`: one root node with `Info::default`,
parent = itself. -/
def Stats.new : Stats :=
  ⟨[Node.new Info.dfl 0]⟩

/-- `Stats::head`: the root node. -/
def Stats.head (s : Stats) : Node :=
  nodeAt s.nodes 0

/-- Info of node `i` in arena `s`. -/
def Stats.infoAt (s : Stats) (i : Nat) : Info :=
  (nodeAt s.nodes i).info

/-- Well-formedness of the arena, guaranteed by construction in the Rust
code: nonempty, and every parent link strictly decreases except the root's
self-loop at index 0. -/
def Stats.WF (s : Stats) : Prop :=
  0 < s.nodes.length ∧
    ∀ i, i < s.nodes.length →
      parentAt s.nodes i < i ∨ (i = 0 ∧ parentAt s.nodes 0 = 0)

instance (s : Stats) : Decidable s.WF := by
  unfold Stats.WF
  infer_instance

/-- Abstract filesystem tree, the OS boundary behind the Filesystem Adapter
(src/util.rs). `denied` is a directory whose open fails with
permission-denied; `broken` is an item whose metadata read fails. Directory
sizes come from the filesystem, as `md.len()` does. -/
inductive Fs
  | file (size : Nat)
  | dir (size : Nat) (items : List (String × Fs))
  | other (size : Nat)
  | denied
  | broken
deriving Repr

/-- Filesystem error classes relevant to the adapter. -/
inductive FsError
  | notFound
  | notADir
  | permissionDenied
  | metaFail
  | invalidFilename
deriving DecidableEq, Repr

/-- Resolve a path (a list of components) inside the abstract filesystem. -/
def fsLookup : Fs → List String → Option Fs
  | fs, [] => some fs
  | Fs.dir _ items, name :: rest =>
    match items.lookup name with
    | some sub => fsLookup sub rest
    | none => none
  | _, _ :: _ => none

/-- Per-item metadata (`de.metadata()`): kind from the file type, size from
`md.len()`; `none` models a metadata read failure. A `denied` directory
still stats as a directory — only opening it fails. -/
def itemMeta : Fs → Option (FileKind × Nat)
  | Fs.file size => some (FileKind.File, size)
  | Fs.dir size _ => some (FileKind.Dir, size)
  | Fs.other size => some (FileKind.Other, size)
  | Fs.denied => some (FileKind.Dir, 0)
  | Fs.broken => none

/-- `get_name` from src/util.rs: the terminal path component, or an
invalid-filename error when the path has none. -/
def getName (path : List String) : Except FsError String :=
  match path.getLast? with
  | some n => Except.ok n
  | none => Except.error FsError.invalidFilename

/-- Item loop of `read_dir` from src/util.rs, in state-passing callback
style matching the Rust closures. The `handle!` macro reports the error and
then RETURNS from `read_dir`, so the first per-item failure ends the whole
listing (remaining items are skipped). -/
def readDirGo {σ : Type} (onEntry : σ → Entry → σ) (onError : σ → FsError → σ)
    (parent : Nat) (path : List String) :
    List (String × Fs) → σ → σ
  | [], st => st
  | (name, sub) :: rest, st =>
    match itemMeta sub with
    | none => onError st FsError.metaFail
    | some (k, size) =>
      match getName (path ++ [name]) with
      | Except.error e => onError st e
      | Except.ok nm =>
        readDirGo onEntry onError parent path rest
          (onEntry st (Entry.mk parent (Info.new nm k size) (path ++ [name])))

/-- `read_dir` from src/util.rs: open `path` for listing (one error and
return on open failure), then run the item loop. -/
def readDirCB {σ : Type} (onEntry : σ → Entry → σ) (onError : σ → FsError → σ)
    (fs : Fs) (parent : Nat) (path : List String) (st : σ) : σ :=
  match fsLookup fs path with
  | some (Fs.dir _ items) => readDirGo onEntry onError parent path items st
  | some Fs.denied => onError st FsError.permissionDenied
  | some _ => onError st FsError.notADir
  | none => onError st FsError.notFound

/-- Pure view of `read_dir`: the entries and errors it reports, each in
callback-invocation order. -/
def fsReadDir (fs : Fs) (parent : Nat) (path : List String) :
    List Entry × List FsError :=
  readDirCB (fun acc e => (acc.1 ++ [e], acc.2))
    (fun acc er => (acc.1, acc.2 ++ [er])) fs parent path ([], [])

/-- Pure view of the item loop of `read_dir` alone, over a given item
list. -/
def goPure (parent : Nat) (path : List String)
    (items : List (String × Fs)) : List Entry × List FsError :=
  readDirGo (fun acc e => (acc.1 ++ [e], acc.2))
    (fun acc er => (acc.1, acc.2 ++ [er])) parent path items ([], [])

/-- The Sequential source (src/du/st.rs): an entry stack and an error
list. -/
structure StSource where
  entries : List Entry
  errors : List FsError
deriving DecidableEq, Repr

/-- Fresh sequential source (`Source::default`). -/
def StSource.init : StSource := ⟨[], []⟩

/-- `st::Source::next_entry`: `Vec::pop` — remove and return the last
(most recently buffered) entry, `none` on an empty buffer. -/
def StSource.nextEntry (src : StSource) : Option (Entry × StSource) :=
  match src.entries.getLast? with
  | none => none
  | some e => some (e, { src with entries := src.entries.dropLast })

/-- `st::Source::enqueue`: run `read_dir` immediately, pushing produced
entries onto the entry stack and failures onto the error list. -/
def StSource.enqueue (fs : Fs) (src : StSource) (parent : Nat)
    (path : List String) : StSource :=
  readDirCB (fun s e => { s with entries := s.entries ++ [e] })
    (fun s er => { s with errors := s.errors ++ [er] })
    fs parent path src

/-- One item of the worker-to-driver channel of the Parallel source
(`Result<Entry>` in src/du/mt.rs). -/
inductive ChanItem
  | okEntry (e : Entry)
  | errItem (er : FsError)
deriving DecidableEq, Repr

/-- A panic of the Rust program (an `unwrap` on an `Err`). -/
inductive Panic
  | panic
deriving DecidableEq, Repr

/-- The Parallel source (src/du/mt.rs): pending channel items (FIFO), the
driver-side error list, the mutex-guarded task queue (FIFO), and the
advisory running flag. -/
structure MtSource where
  channel : List ChanItem
  errors : List FsError
  tasks : List (Nat × List String)
  running : Bool
deriving DecidableEq, Repr

/-- Fresh parallel source (`Source::default`). -/
def MtSource.init : MtSource := ⟨[], [], [], false⟩

/-- `mt::Source::enqueue`: push the task onto the back of the queue. -/
def MtSource.enqueue (src : MtSource) (parent : Nat) (path : List String) :
    MtSource :=
  { src with tasks := src.tasks ++ [(parent, path)] }

/-- `mt::Source::next_entry`, which is
`self.handle_err(self.rx_entries.try_recv().unwrap())`.
On an empty channel `try_recv` yields `Err(TryRecvError::Empty)` — the
source itself still owns the sender, so the channel is never disconnected —
and the `unwrap` panics. On an error item, `handle_err` records the error
and yields `none`. -/
def MtSource.nextEntry (src : MtSource) :
    Except Panic (Option Entry × MtSource) :=
  match src.channel with
  | [] => Except.error Panic.panic
  | ChanItem.okEntry e :: rest =>
    Except.ok (some e, { src with channel := rest })
  | ChanItem.errItem er :: rest =>
    Except.ok (none, { src with channel := rest, errors := src.errors ++ [er] })

/-- One worker handling one task (`run_thread` body): `read_dir` with both
callbacks sending onto the channel (`Ok(entry)` / `Err(error)`), in
invocation order. -/
def mtReadTask (fs : Fs) (chan : List ChanItem) (parent : Nat)
    (path : List String) : List ChanItem :=
  readDirCB (fun ch e => ch ++ [ChanItem.okEntry e])
    (fun ch er => ch ++ [ChanItem.errItem er]) fs parent path chan

/-- Worker-pool drain: process the queued tasks, appending each task's
channel output. Modelled deterministically in FIFO task order: under the
driver's usage exactly one task (the root) is queued when `begin` runs, so
no cross-task interleaving arises, and items of a single directory are sent
in adapter enumeration order by the single worker that claimed it. -/
def mtDrain (fs : Fs) : List (Nat × List String) → List ChanItem → List ChanItem
  | [], chan => chan
  | (parent, path) :: rest, chan =>
    mtDrain fs rest (mtReadTask fs chan parent path)

/-- `mt::Source::begin`: set the running flag, run workers until the task
queue drains to quiescence and every worker exits (the call blocks on
`thread::scope`), then clear the flag. -/
def MtSource.begin (fs : Fs) (src : MtSource) : MtSource :=
  { src with
    channel := mtDrain fs src.tasks src.channel
    tasks := []
    running := false }

/-- `Du::read` with the Sequential source: repeatedly pull `next_entry`;
check the predicate after the pull; on success push the entry into the
arena and enqueue a follow-up task for a directory entry; on a failed
predicate discard the pulled entry and stop; on `none` stop. Fuel bounds
the loop (any finite fixture needs only finitely many steps). -/
def duRead (fs : Fs) (pred : Stats → StSource → Bool) :
    Nat → Stats → StSource → Nat → Stats × StSource × Nat
  | 0, stats, src, count => (stats, src, count)
  | fuel + 1, stats, src, count =>
    match src.nextEntry with
    | none => (stats, src, count)
    | some (entry, src1) =>
      if pred stats src1 then
        let isDir := entry.info.kind = FileKind.Dir
        let r := stats.push entry.parent entry.info
        let src2 := if isDir then src1.enqueue fs r.2 entry.path else src1
        duRead fs pred fuel r.1 src2 (count + 1)
      else (stats, src1, count)

/-- `Du::read` with the Parallel source; a panic of `next_entry`
propagates. -/
def duReadMt (fs : Fs) (pred : Stats → MtSource → Bool) :
    Nat → Stats → MtSource → Nat → Except Panic (Stats × MtSource × Nat)
  | 0, stats, src, count => Except.ok (stats, src, count)
  | fuel + 1, stats, src, count =>
    match src.nextEntry with
    | Except.error p => Except.error p
    | Except.ok (none, src1) => Except.ok (stats, src1, count)
    | Except.ok (some entry, src1) =>
      if pred stats src1 then
        let isDir := entry.info.kind = FileKind.Dir
        let r := stats.push entry.parent entry.info
        let src2 := if isDir then src1.enqueue r.2 entry.path else src1
        duReadMt fs pred fuel r.1 src2 (count + 1)
      else Except.ok (stats, src1, count)

/-- The predicate `read_for` passes to `read` when the budget is the zero
duration: `now.elapsed() < dur` is false at every check (elapsed time is
never below zero). It ignores the arena and the source. -/
def zeroBudget : Stats → StSource → Bool := fun _ _ => false

/-- `Du::begin` followed by a full `read` with the Sequential source:
enqueue `(ROOT, path)` (the sequential source reads it synchronously),
`begin()` is a no-op, then drain with an always-true predicate. The
fixture itself is the root directory, at the empty path. -/
def seqRun (fs : Fs) (fuel : Nat) : Stats × StSource × Nat :=
  duRead fs (fun _ _ => true) fuel Stats.new (StSource.init.enqueue fs 0 []) 0

/-- `Du::begin` followed by a full `read` with the Parallel source:
enqueue `(ROOT, path)` as a task, run `begin` (which blocks until the
worker pool is quiescent), then drain with an always-true predicate. -/
def mtRun (fs : Fs) (fuel : Nat) : Except Panic (Stats × MtSource × Nat) :=
  duReadMt fs (fun _ _ => true) fuel Stats.new
    (MtSource.begin fs (MtSource.init.enqueue 0 [])) 0

/-- Iterated parent link: follow `parentAt` for `n` steps from `p`. -/
def iterPar (nodes : List Node) : Nat → Nat → Nat
  | 0, p => p
  | n + 1, p => iterPar nodes n (parentAt nodes p)

/-- One recorded call of `Stats::push` as issued by the driver: the parent
id and the data `Info::new` is built from (a freshly produced entry). -/
structure PushOp where
  parent : Nat
  name : String
  kind : FileKind
  size : Nat
deriving DecidableEq, Repr

/-- Fallback op for out-of-bounds indexing (never reached in theorems). -/
def PushOp.fallback : PushOp := ⟨0, "", FileKind.Other, 0⟩

/-- The arena obtained by replaying a sequence of pushes on the fresh
arena. Op `k` pushes `Info.new name kind size` under `parent`; the node it
creates receives id `k + 1`. -/
def build (ops : List PushOp) : Stats :=
  ops.foldl
    (fun s op => (s.push op.parent (Info.new op.name op.kind op.size)).1)
    Stats.new

/-- The leaf contribution of node `j` under the push history `ops`: the
info it was pushed with (the root's is `Info::default`), before any
descendant was aggregated into it. -/
def leafInfo (ops : List PushOp) : Nat → Info
  | 0 => Info.dfl
  | j + 1 =>
    let op := ops.getD j PushOp.fallback
    Info.new op.name op.kind op.size

/-- Validity of a push history: every op names a parent that already
exists when it runs (the arena holds `k + 1` nodes before op `k`). This is
how the driver always calls `push` — parent ids are minted by the arena. -/
def ValidOps (ops : List PushOp) : Prop :=
  ∀ k, k < ops.length → (ops.getD k PushOp.fallback).parent ≤ k

instance (ops : List PushOp) : Decidable (ValidOps ops) := by
  unfold ValidOps
  infer_instance

/-- The descendant-or-self set of node `i`: all nodes whose ancestor-or-self
chain passes through `i`. -/
def subtree (s : Stats) (i : Nat) : Finset ℕ :=
  (Finset.range s.nodes.length).filter (fun j => i ∈ s.chain j)

/-- Parent links are well-founded below `p`: every index up to `p` has a
strictly smaller parent, except the root's self-loop at 0. This is the
local form of `Stats.WF` the chain lemmas need. -/
def ParOk (nodes : List Node) (p : Nat) : Prop :=
  ∀ k, k ≤ p → parentAt nodes k < k ∨ (k = 0 ∧ parentAt nodes 0 = 0)

theorem list_set_oob {α : Type} :
    ∀ (l : List α) (i : Nat) (a : α), l.length ≤ i → l.set i a = l := by
  intro l
  induction l with
  | nil => intro i a _; rfl
  | cons x xs ih =>
    intro i a h
    cases i with
    | zero => simp at h
    | succ i =>
      simp only [List.set]
      rw [ih i a (by simpa using h)]

theorem list_getD_set_self {α : Type} :
    ∀ (l : List α) (i : Nat) (a d : α), i < l.length →
      (l.set i a).getD i d = a := by
  intro l
  induction l with
  | nil => intro i a d h; simp at h
  | cons x xs ih =>
    intro i a d h
    cases i with
    | zero => rfl
    | succ i =>
      simp only [List.set, List.getD_cons_succ]
      exact ih i a d (by simpa using h)

theorem list_getD_set_ne {α : Type} :
    ∀ (l : List α) (i j : Nat) (a d : α), i ≠ j →
      (l.set i a).getD j d = l.getD j d := by
  intro l
  induction l with
  | nil => intro i j a d _; rfl
  | cons x xs ih =>
    intro i j a d h
    cases i with
    | zero =>
      cases j with
      | zero => exact absurd rfl h
      | succ j => rfl
    | succ i =>
      cases j with
      | zero => rfl
      | succ j =>
        simp only [List.set, List.getD_cons_succ]
        exact ih i j a d (by omega)

theorem list_getD_append_lt {α : Type} :
    ∀ (xs ys : List α) (i : Nat) (d : α), i < xs.length →
      (xs ++ ys).getD i d = xs.getD i d := by
  intro xs
  induction xs with
  | nil => intro ys i d h; simp at h
  | cons x l ih =>
    intro ys i d h
    cases i with
    | zero => rfl
    | succ i =>
      simp only [List.cons_append, List.getD_cons_succ]
      exact ih ys i d (by simpa using h)

theorem list_getD_append_len {α : Type} :
    ∀ (xs : List α) (x d : α), (xs ++ [x]).getD xs.length d = x := by
  intro xs
  induction xs with
  | nil => intro x d; rfl
  | cons y l ih =>
    intro x d
    simpa only [List.cons_append, List.getD_cons_succ] using ih x d

theorem nodeAt_set_self (nodes : List Node) (i : Nat) (n : Node)
    (h : i < nodes.length) : nodeAt (nodes.set i n) i = n :=
  list_getD_set_self nodes i n Node.fallback h

theorem nodeAt_set_ne (nodes : List Node) (i j : Nat) (n : Node)
    (h : i ≠ j) : nodeAt (nodes.set i n) j = nodeAt nodes j :=
  list_getD_set_ne nodes i j n Node.fallback h

theorem nodeAt_append_lt (xs ys : List Node) (i : Nat) (h : i < xs.length) :
    nodeAt (xs ++ ys) i = nodeAt xs i :=
  list_getD_append_lt xs ys i Node.fallback h

theorem nodeAt_append_len (xs : List Node) (x : Node) :
    nodeAt (xs ++ [x]) xs.length = x :=
  list_getD_append_len xs x Node.fallback

theorem modifyInfo_length (nodes : List Node) (i : Nat) (f : Info → Info) :
    (modifyInfo nodes i f).length = nodes.length := by
  simp [modifyInfo]

theorem modifyChildren_length (nodes : List Node) (i : Nat)
    (f : List Nat → List Nat) :
    (modifyChildren nodes i f).length = nodes.length := by
  simp [modifyChildren]

theorem nodeAt_modifyInfo_self (nodes : List Node) (i : Nat) (f : Info → Info)
    (h : i < nodes.length) :
    nodeAt (modifyInfo nodes i f) i =
      { nodeAt nodes i with info := f (nodeAt nodes i).info } :=
  nodeAt_set_self nodes i _ h

theorem nodeAt_modifyInfo_ne (nodes : List Node) (i j : Nat) (f : Info → Info)
    (h : i ≠ j) : nodeAt (modifyInfo nodes i f) j = nodeAt nodes j :=
  nodeAt_set_ne nodes i j _ h

theorem modifyInfo_oob (nodes : List Node) (i : Nat) (f : Info → Info)
    (h : nodes.length ≤ i) : modifyInfo nodes i f = nodes :=
  list_set_oob nodes i _ h

theorem nodeAt_modifyChildren_self (nodes : List Node) (i : Nat)
    (f : List Nat → List Nat) (h : i < nodes.length) :
    nodeAt (modifyChildren nodes i f) i =
      { nodeAt nodes i with children := f (nodeAt nodes i).children } :=
  nodeAt_set_self nodes i _ h

theorem nodeAt_modifyChildren_ne (nodes : List Node) (i j : Nat)
    (f : List Nat → List Nat) (h : i ≠ j) :
    nodeAt (modifyChildren nodes i f) j = nodeAt nodes j :=
  nodeAt_set_ne nodes i j _ h

theorem parentAt_modifyInfo (nodes : List Node) (i : Nat) (f : Info → Info)
    (j : Nat) : parentAt (modifyInfo nodes i f) j = parentAt nodes j := by
  by_cases hi : i < nodes.length
  · by_cases hij : i = j
    · subst hij
      rw [parentAt, nodeAt_modifyInfo_self nodes i f hi]
      rfl
    · rw [parentAt, nodeAt_modifyInfo_ne nodes i j f hij]
      rfl
  · rw [modifyInfo_oob nodes i f (by omega)]

theorem parentAt_modifyChildren (nodes : List Node) (i : Nat)
    (f : List Nat → List Nat) (j : Nat) :
    parentAt (modifyChildren nodes i f) j = parentAt nodes j := by
  by_cases hi : i < nodes.length
  · by_cases hij : i = j
    · subst hij
      rw [parentAt, nodeAt_modifyChildren_self nodes i f hi]
      rfl
    · rw [parentAt, nodeAt_modifyChildren_ne nodes i j f hij]
      rfl
  · rw [modifyChildren, list_set_oob nodes i _ (by omega)]

theorem parOk_mono (nodes : List Node) (p q : Nat) (h : q ≤ p)
    (hp : ParOk nodes p) : ParOk nodes q :=
  fun k hk => hp k (by omega)

theorem parOk_parent_lt (nodes : List Node) (p : Nat) (hp : ParOk nodes p)
    (hroot : parentAt nodes p ≠ p) : parentAt nodes p < p := by
  rcases hp p le_rfl with h | ⟨hz, h0⟩
  · exact h
  · subst hz
    exact absurd h0 hroot

theorem chainAux_fuel (nodes : List Node) :
    ∀ p, ParOk nodes p → ∀ fuel, p + 1 ≤ fuel →
      chainAux nodes fuel p = chainL nodes p := by
  intro p
  induction p using Nat.strong_induction_on with
  | _ p ih =>
    intro hp fuel hf
    obtain ⟨f, rfl⟩ : ∃ f, fuel = f + 1 := ⟨fuel - 1, by omega⟩
    by_cases hroot : parentAt nodes p = p
    · simp [chainL, chainAux, hroot]
    · have hlt := parOk_parent_lt nodes p hp hroot
      have hp' := parOk_mono nodes p (parentAt nodes p) (by omega) hp
      simp only [chainL, chainAux, hroot, if_neg, ite_false]
      rw [ih _ hlt hp' f (by omega), ih _ hlt hp' p (by omega)]

theorem chainAux_succ (nodes : List Node) (fuel p : Nat) :
    chainAux nodes (fuel + 1) p =
      if parentAt nodes p = p then [p]
      else p :: chainAux nodes fuel (parentAt nodes p) := rfl

theorem chainL_unfold (nodes : List Node) (p : Nat) (hp : ParOk nodes p) :
    chainL nodes p =
      if parentAt nodes p = p then [p]
      else p :: chainL nodes (parentAt nodes p) := by
  by_cases hroot : parentAt nodes p = p
  · rw [if_pos hroot]
    show chainAux nodes (p + 1) p = [p]
    rw [chainAux_succ, if_pos hroot]
  · have hlt := parOk_parent_lt nodes p hp hroot
    have hp' := parOk_mono nodes p (parentAt nodes p) (by omega) hp
    rw [if_neg hroot]
    show chainAux nodes (p + 1) p = _
    rw [chainAux_succ, if_neg hroot, chainAux_fuel nodes _ hp' p (by omega)]

theorem chain_mem_le (nodes : List Node) :
    ∀ p, ParOk nodes p → ∀ i, i ∈ chainL nodes p → i ≤ p := by
  intro p
  induction p using Nat.strong_induction_on with
  | _ p ih =>
    intro hp i hi
    rw [chainL_unfold nodes p hp] at hi
    by_cases hroot : parentAt nodes p = p
    · simp [hroot] at hi
      omega
    · have hlt := parOk_parent_lt nodes p hp hroot
      have hp' := parOk_mono nodes p (parentAt nodes p) (by omega) hp
      simp only [hroot, ite_false, List.mem_cons] at hi
      rcases hi with rfl | hi
      · exact le_rfl
      · exact le_trans (ih _ hlt hp' i hi) (by omega)

theorem chain_self_mem (nodes : List Node) (p : Nat) (hp : ParOk nodes p) :
    p ∈ chainL nodes p := by
  rw [chainL_unfold nodes p hp]
  by_cases hroot : parentAt nodes p = p
  · simp [hroot]
  · simp [hroot]

theorem chain_nodup (nodes : List Node) :
    ∀ p, ParOk nodes p → (chainL nodes p).Nodup := by
  intro p
  induction p using Nat.strong_induction_on with
  | _ p ih =>
    intro hp
    rw [chainL_unfold nodes p hp]
    by_cases hroot : parentAt nodes p = p
    · simp [hroot]
    · have hlt := parOk_parent_lt nodes p hp hroot
      have hp' := parOk_mono nodes p (parentAt nodes p) (by omega) hp
      simp only [hroot, ite_false, List.nodup_cons]
      refine ⟨fun hmem => ?_, ih _ hlt hp'⟩
      have := chain_mem_le nodes _ hp' p hmem
      omega

theorem chain_root_exists (nodes : List Node) :
    ∀ p, ParOk nodes p →
      ∃ r, r ∈ chainL nodes p ∧ parentAt nodes r = r := by
  intro p
  induction p using Nat.strong_induction_on with
  | _ p ih =>
    intro hp
    rw [chainL_unfold nodes p hp]
    by_cases hroot : parentAt nodes p = p
    · exact ⟨p, by simp [hroot], hroot⟩
    · have hlt := parOk_parent_lt nodes p hp hroot
      have hp' := parOk_mono nodes p (parentAt nodes p) (by omega) hp
      obtain ⟨r, hr, hrr⟩ := ih _ hlt hp'
      exact ⟨r, by simp [hroot, hr], hrr⟩

theorem iterPar_fix (nodes : List Node) (p : Nat)
    (hroot : parentAt nodes p = p) : ∀ n, iterPar nodes n p = p := by
  intro n
  induction n with
  | zero => rfl
  | succ n ihn => rw [iterPar, hroot]; exact ihn

theorem chain_mem_iff_iterPar (nodes : List Node) :
    ∀ p, ParOk nodes p →
      ∀ i, i ∈ chainL nodes p ↔ ∃ n, iterPar nodes n p = i := by
  intro p
  induction p using Nat.strong_induction_on with
  | _ p ih =>
    intro hp i
    rw [chainL_unfold nodes p hp]
    by_cases hroot : parentAt nodes p = p
    · simp only [hroot, ite_true, List.mem_singleton]
      constructor
      · rintro rfl
        exact ⟨0, rfl⟩
      · rintro ⟨n, rfl⟩
        exact (iterPar_fix nodes p hroot n).symm ▸ rfl
    · have hlt := parOk_parent_lt nodes p hp hroot
      have hp' := parOk_mono nodes p (parentAt nodes p) (by omega) hp
      simp only [hroot, ite_false, List.mem_cons]
      constructor
      · rintro (rfl | hmem)
        · exact ⟨0, rfl⟩
        · obtain ⟨n, hn⟩ := (ih _ hlt hp' i).mp hmem
          exact ⟨n + 1, hn⟩
      · rintro ⟨n, rfl⟩
        cases n with
        | zero => exact Or.inl rfl
        | succ n => exact Or.inr ((ih _ hlt hp' _).mpr ⟨n, rfl⟩)

theorem chainL_congr (nodes nodes' : List Node) :
    ∀ p, ParOk nodes p →
      (∀ k, k ≤ p → parentAt nodes' k = parentAt nodes k) →
      chainL nodes' p = chainL nodes p := by
  intro p
  induction p using Nat.strong_induction_on with
  | _ p ih =>
    intro hp heq
    have hp' : ParOk nodes' p := by
      intro k hk
      rw [heq k hk]
      rcases hp k hk with h | ⟨hz, h0⟩
      · exact Or.inl h
      · exact Or.inr ⟨hz, by rw [heq 0 (by omega)]; exact h0⟩
    rw [chainL_unfold nodes p hp, chainL_unfold nodes' p hp', heq p le_rfl]
    by_cases hroot : parentAt nodes p = p
    · simp [hroot]
    · have hlt := parOk_parent_lt nodes p hp hroot
      rw [if_neg hroot, if_neg hroot]
      congr 1
      exact ih _ hlt (parOk_mono nodes p _ (by omega) hp)
        (fun k hk => heq k (by omega))

theorem applyChain_succ (info : Info) (fuel p : Nat) (nodes : List Node) :
    applyChain info (fuel + 1) p nodes =
      if parentAt nodes p = p then modifyInfo nodes p (Info.apply · info)
      else applyChain info fuel (parentAt nodes p)
        (modifyInfo nodes p (Info.apply · info)) := rfl

theorem applyChain_length (info : Info) :
    ∀ (fuel p : Nat) (nodes : List Node),
      (applyChain info fuel p nodes).length = nodes.length := by
  intro fuel
  induction fuel with
  | zero => intro p nodes; rfl
  | succ fuel ih =>
    intro p nodes
    rw [applyChain_succ]
    by_cases hroot : parentAt nodes p = p
    · rw [if_pos hroot, modifyInfo_length]
    · rw [if_neg hroot, ih, modifyInfo_length]

theorem parOk_modifyInfo (nodes : List Node) (j : Nat) (f : Info → Info)
    (p : Nat) (hp : ParOk nodes p) : ParOk (modifyInfo nodes j f) p := by
  intro k hk
  rw [parentAt_modifyInfo, parentAt_modifyInfo]
  exact hp k hk

theorem applyChain_fuel (info : Info) :
    ∀ p (nodes : List Node), ParOk nodes p → ∀ fuel, p + 1 ≤ fuel →
      applyChain info fuel p nodes = applyChain info (p + 1) p nodes := by
  intro p
  induction p using Nat.strong_induction_on with
  | _ p ih =>
    intro nodes hp fuel hf
    obtain ⟨f, rfl⟩ : ∃ f, fuel = f + 1 := ⟨fuel - 1, by omega⟩
    by_cases hroot : parentAt nodes p = p
    · rw [applyChain_succ, applyChain_succ, if_pos hroot, if_pos hroot]
    · have hlt := parOk_parent_lt nodes p hp hroot
      rw [applyChain_succ, applyChain_succ, if_neg hroot, if_neg hroot]
      have hp' : ParOk (modifyInfo nodes p (Info.apply · info)) (parentAt nodes p) :=
        parOk_modifyInfo nodes p _ _ (parOk_mono nodes p _ (by omega) hp)
      rw [ih _ hlt _ hp' f (by omega), ih _ hlt _ hp' p (by omega)]

theorem applyChain_get (info : Info) :
    ∀ p (nodes : List Node), ParOk nodes p → p < nodes.length →
      ∀ j, nodeAt (applyChain info (p + 1) p nodes) j =
        if j ∈ chainL nodes p then
          { nodeAt nodes j with info := (nodeAt nodes j).info.apply info }
        else nodeAt nodes j := by
  intro p
  induction p using Nat.strong_induction_on with
  | _ p ih =>
    intro nodes hp hlen j
    by_cases hroot : parentAt nodes p = p
    · rw [applyChain_succ, if_pos hroot, chainL_unfold nodes p hp, if_pos hroot]
      by_cases hj : j = p
      · subst hj
        rw [nodeAt_modifyInfo_self nodes j _ hlen, if_pos (by simp)]
      · rw [nodeAt_modifyInfo_ne nodes p j _ (fun h => hj h.symm),
          if_neg (by simp [hj])]
    · have hlt := parOk_parent_lt nodes p hp hroot
      have hple := parOk_mono nodes p _ (le_of_lt hlt) hp
      set q := parentAt nodes p with hq
      set nodes1 := modifyInfo nodes p (Info.apply · info) with hnodes1
      have hq1 : ParOk nodes1 q := parOk_modifyInfo nodes p _ q hple
      have hqlen : q < nodes1.length := by
        rw [hnodes1, modifyInfo_length]; omega
      rw [applyChain_succ, if_neg hroot,
        applyChain_fuel info q nodes1 hq1 p (by omega), ih q hlt nodes1 hq1 hqlen j]
      have hchain1 : chainL nodes1 q = chainL nodes q :=
        chainL_congr nodes nodes1 q hple
          (fun k _ => parentAt_modifyInfo nodes p _ k)
      have hchain : chainL nodes p = p :: chainL nodes q := by
        rw [chainL_unfold nodes p hp, if_neg hroot]
      rw [hchain1, hchain]
      by_cases hj : j = p
      · subst hj
        have hnot : j ∉ chainL nodes q := fun hmem => by
          have := chain_mem_le nodes q hple j hmem
          omega
        rw [if_neg hnot, if_pos (List.mem_cons_self j _),
          hnodes1, nodeAt_modifyInfo_self nodes j _ hlen]
      · have hne : nodeAt nodes1 j = nodeAt nodes j :=
          nodeAt_modifyInfo_ne nodes p j _ (fun h => hj h.symm)
        rw [hne]
        by_cases hmem : j ∈ chainL nodes q
        · rw [if_pos hmem, if_pos (List.mem_cons_of_mem p hmem)]
        · rw [if_neg hmem, if_neg (by simp [hj, hmem])]

theorem wf_parOk (s : Stats) (hwf : s.WF) (p : Nat) (hp : p < s.nodes.length) :
    ParOk s.nodes p := by
  intro k hk
  exact hwf.2 k (by omega)

theorem parOk_congr (nodes nodes' : List Node) (p : Nat)
    (heq : ∀ k, parentAt nodes' k = parentAt nodes k) (hp : ParOk nodes p) :
    ParOk nodes' p := by
  intro k hk
  rw [heq k, heq 0]
  exact hp k hk

theorem push_snd (s : Stats) (p : Nat) (info : Info) :
    (s.push p info).2 = s.nodes.length := rfl

theorem push_nodes_def (s : Stats) (p : Nat) (info : Info) :
    (s.push p info).1.nodes =
      applyChain info
        (modifyChildren s.nodes p (fun c => c ++ [s.nodes.length])).length p
        (modifyChildren s.nodes p (fun c => c ++ [s.nodes.length]))
      ++ [Node.new info p] := rfl

theorem push_length (s : Stats) (p : Nat) (info : Info) :
    (s.push p info).1.nodes.length = s.nodes.length + 1 := by
  rw [push_nodes_def, List.length_append, applyChain_length,
    modifyChildren_length]
  rfl

theorem push_nodeAt_old (s : Stats) (p : Nat) (info : Info) (hwf : s.WF)
    (hp : p < s.nodes.length) (j : Nat) (hj : j < s.nodes.length) :
    nodeAt (s.push p info).1.nodes j =
      { info :=
          if j ∈ s.chain p then (nodeAt s.nodes j).info.apply info
          else (nodeAt s.nodes j).info
        parent := (nodeAt s.nodes j).parent
        children :=
          if j = p then (nodeAt s.nodes j).children ++ [s.nodes.length]
          else (nodeAt s.nodes j).children } := by
  classical
  set len := s.nodes.length with hlendef
  set n1 := modifyChildren s.nodes p (fun c => c ++ [len]) with hn1
  have hlen1 : n1.length = len := modifyChildren_length s.nodes p _
  have hpar1 : ∀ k, parentAt n1 k = parentAt s.nodes k :=
    fun k => parentAt_modifyChildren s.nodes p _ k
  have hpok : ParOk s.nodes p := wf_parOk s hwf p hp
  have hpok1 : ParOk n1 p := parOk_congr s.nodes n1 p hpar1 hpok
  have hplen1 : p < n1.length := by omega
  have hstep :
      nodeAt (s.push p info).1.nodes j =
        nodeAt (applyChain info (p + 1) p n1) j := by
    rw [push_nodes_def, nodeAt_append_lt _ _ j
      (by rw [applyChain_length, hlen1]; omega)]
    rw [hlen1, applyChain_fuel info p n1 hpok1 len (by omega)]
  rw [hstep, applyChain_get info p n1 hpok1 hplen1 j]
  have hchain1 : chainL n1 p = chainL s.nodes p :=
    chainL_congr s.nodes n1 p hpok (fun k _ => hpar1 k)
  have hn1j :
      nodeAt n1 j =
        if j = p then
          { nodeAt s.nodes j with
            children := (nodeAt s.nodes j).children ++ [len] }
        else nodeAt s.nodes j := by
    by_cases hjp : j = p
    · subst hjp
      rw [if_pos rfl, hn1, nodeAt_modifyChildren_self s.nodes j _ hj]
    · rw [if_neg hjp, hn1,
        nodeAt_modifyChildren_ne s.nodes p j _ (fun h => hjp h.symm)]
  rw [hchain1, hn1j]
  show (if j ∈ s.chain p then _ else _) = _
  by_cases hmem : j ∈ s.chain p
  · rw [if_pos hmem, if_pos hmem]
    by_cases hjp : j = p
    · rw [if_pos hjp, if_pos hjp]
    · rw [if_neg hjp, if_neg hjp]
  · rw [if_neg hmem, if_neg hmem]
    by_cases hjp : j = p
    · rw [if_pos hjp, if_pos hjp]
    · rw [if_neg hjp, if_neg hjp]

theorem nodeAt_append_len_of (xs : List Node) (x : Node) (n : Nat)
    (h : xs.length = n) : nodeAt (xs ++ [x]) n = x := by
  subst h
  exact nodeAt_append_len xs x

theorem push_nodeAt_new (s : Stats) (p : Nat) (info : Info) :
    nodeAt (s.push p info).1.nodes s.nodes.length = Node.new info p := by
  rw [push_nodes_def]
  exact nodeAt_append_len_of _ _ _ (by rw [applyChain_length, modifyChildren_length])

theorem push_parentAt_old (s : Stats) (p : Nat) (info : Info) (hwf : s.WF)
    (hp : p < s.nodes.length) (j : Nat) (hj : j < s.nodes.length) :
    parentAt (s.push p info).1.nodes j = parentAt s.nodes j := by
  rw [parentAt, push_nodeAt_old s p info hwf hp j hj]
  rfl

theorem push_parentAt_new (s : Stats) (p : Nat) (info : Info) :
    parentAt (s.push p info).1.nodes s.nodes.length = p := by
  rw [parentAt, push_nodeAt_new]
  rfl

theorem push_WF (s : Stats) (p : Nat) (info : Info) (hwf : s.WF)
    (hp : p < s.nodes.length) : (s.push p info).1.WF := by
  constructor
  · rw [push_length]
    omega
  · intro i hi
    rw [push_length] at hi
    have h0 : parentAt (s.push p info).1.nodes 0 = parentAt s.nodes 0 :=
      push_parentAt_old s p info hwf hp 0 hwf.1
    by_cases hlt : i < s.nodes.length
    · rw [push_parentAt_old s p info hwf hp i hlt, h0]
      exact hwf.2 i hlt
    · have hieq : i = s.nodes.length := by omega
      subst hieq
      rw [push_parentAt_new]
      exact Or.inl hp

theorem push_chain_old (s : Stats) (p : Nat) (info : Info) (hwf : s.WF)
    (hp : p < s.nodes.length) (j : Nat) (hj : j < s.nodes.length) :
    (s.push p info).1.chain j = s.chain j := by
  exact chainL_congr s.nodes (s.push p info).1.nodes j
    (wf_parOk s hwf j hj)
    (fun k hk => push_parentAt_old s p info hwf hp k (by omega))

theorem push_chain_new (s : Stats) (p : Nat) (info : Info) (hwf : s.WF)
    (hp : p < s.nodes.length) :
    (s.push p info).1.chain s.nodes.length = s.nodes.length :: s.chain p := by
  have hwf' := push_WF s p info hwf hp
  have hpok' : ParOk (s.push p info).1.nodes s.nodes.length := by
    apply wf_parOk _ hwf'
    rw [push_length]
    omega
  have hne : parentAt (s.push p info).1.nodes s.nodes.length ≠ s.nodes.length := by
    rw [push_parentAt_new]
    omega
  rw [Stats.chain, chainL_unfold _ _ hpok', if_neg hne, push_parentAt_new]
  exact congrArg _ (push_chain_old s p info hwf hp p hp)

theorem build_append (ops : List PushOp) (op : PushOp) :
    build (ops ++ [op]) =
      ((build ops).push op.parent (Info.new op.name op.kind op.size)).1 :=
  List.foldl_concat _ _ op ops

theorem build_length (ops : List PushOp) :
    (build ops).nodes.length = ops.length + 1 := by
  induction ops using List.reverseRecOn with
  | nil => rfl
  | append_singleton ops op ih =>
    rw [build_append, push_length, ih, List.length_append]
    rfl

theorem validOps_append (ops : List PushOp) (op : PushOp)
    (hv : ValidOps (ops ++ [op])) :
    ValidOps ops ∧ op.parent ≤ ops.length := by
  constructor
  · intro k hk
    have := hv k (by simp only [List.length_append, List.length_singleton]; omega)
    rwa [list_getD_append_lt ops [op] k PushOp.fallback hk] at this
  · have := hv ops.length
      (by simp only [List.length_append, List.length_singleton]; omega)
    rwa [list_getD_append_len ops op PushOp.fallback] at this

theorem build_WF (ops : List PushOp) (hv : ValidOps ops) : (build ops).WF := by
  induction ops using List.reverseRecOn with
  | nil => decide
  | append_singleton ops op ih =>
    obtain ⟨hv', hple⟩ := validOps_append ops op hv
    rw [build_append]
    exact push_WF (build ops) op.parent _ (ih hv')
      (by rw [build_length]; omega)

theorem leafInfo_append_le (ops : List PushOp) (op : PushOp) (j : Nat)
    (hj : j ≤ ops.length) : leafInfo (ops ++ [op]) j = leafInfo ops j := by
  cases j with
  | zero => rfl
  | succ m =>
    show Info.new _ _ _ = Info.new _ _ _
    rw [list_getD_append_lt ops [op] m PushOp.fallback (by omega)]

theorem leafInfo_append_new (ops : List PushOp) (op : PushOp) :
    leafInfo (ops ++ [op]) (ops.length + 1) =
      Info.new op.name op.kind op.size := by
  show Info.new _ _ _ = Info.new _ _ _
  rw [list_getD_append_len ops op PushOp.fallback]

theorem subtree_subset_range (s : Stats) (i j : Nat) (hj : j ∈ subtree s i) :
    j < s.nodes.length := by
  have := (Finset.mem_filter.mp hj).1
  exact Finset.mem_range.mp this

theorem build_inv (g : Info → Nat)
    (hg : ∀ a b, g (Info.apply a b) = g a + g b) :
    ∀ (ops : List PushOp), ValidOps ops →
      ∀ i, i < (build ops).nodes.length →
        g ((build ops).infoAt i) =
          ∑ j ∈ subtree (build ops) i, g (leafInfo ops j) := by
  intro ops
  induction ops using List.reverseRecOn with
  | nil =>
    intro _ i hi
    have hl : (build (List.nil (α := PushOp))).nodes.length = 1 := rfl
    have hi0 : i = 0 := by omega
    subst hi0
    have hsub : subtree (build []) 0 = {0} := by decide
    rw [hsub, Finset.sum_singleton]
    rfl
  | append_singleton ops op ih =>
    intro hv i hi
    obtain ⟨hv', hple⟩ := validOps_append ops op hv
    have hwf := build_WF ops hv'
    have hlen : (build ops).nodes.length = ops.length + 1 := build_length ops
    set s := build ops with hs
    set len := s.nodes.length with hlendef
    have hp : op.parent < len := by omega
    set nInfo := Info.new op.name op.kind op.size with hnInfo
    have hb : build (ops ++ [op]) = (s.push op.parent nInfo).1 :=
      build_append ops op
    rw [hb] at hi ⊢
    rw [push_length] at hi
    have hchain_old :
        ∀ j, j < len → (s.push op.parent nInfo).1.chain j = s.chain j :=
      fun j hj => push_chain_old s op.parent nInfo hwf hp j hj
    have hchain_new :
        (s.push op.parent nInfo).1.chain len = len :: s.chain op.parent :=
      push_chain_new s op.parent nInfo hwf hp
    have hleaf_old :
        ∀ j, j < len → leafInfo (ops ++ [op]) j = leafInfo ops j :=
      fun j hj => leafInfo_append_le ops op j (by omega)
    have hleaf_new : leafInfo (ops ++ [op]) len = nInfo := by
      rw [hlen]
      exact leafInfo_append_new ops op
    have hfilter_eq : ∀ i,
        (Finset.range len).filter
            (fun j => i ∈ (s.push op.parent nInfo).1.chain j) =
          (Finset.range len).filter (fun j => i ∈ s.chain j) := by
      intro i
      apply Finset.filter_congr
      intro j hj
      rw [hchain_old j (Finset.mem_range.mp hj)]
    have hsum_old : ∀ i,
        (∑ j ∈ subtree s i, g (leafInfo (ops ++ [op]) j)) =
          ∑ j ∈ subtree s i, g (leafInfo ops j) := by
      intro i
      apply Finset.sum_congr rfl
      intro j hj
      rw [hleaf_old j (subtree_subset_range s i j hj)]
    by_cases hil : i < len
    · have hsubdec :
          subtree (s.push op.parent nInfo).1 i =
            if i ∈ s.chain op.parent then insert len (subtree s i)
            else subtree s i := by
        unfold subtree
        rw [push_length, Finset.range_succ, Finset.filter_insert, hfilter_eq i]
        have hmem_iff :
            i ∈ (s.push op.parent nInfo).1.chain len ↔
              i ∈ s.chain op.parent := by
          rw [hchain_new, List.mem_cons]
          constructor
          · rintro (rfl | h)
            · omega
            · exact h
          · exact Or.inr
        by_cases hc : i ∈ s.chain op.parent
        · rw [if_pos (hmem_iff.mpr hc), if_pos hc]
        · rw [if_neg (fun h => hc (hmem_iff.mp h)), if_neg hc]
      have hnotin : len ∉ subtree s i := by
        intro h
        have := subtree_subset_range s i len h
        omega
      have hinfo :
          (s.push op.parent nInfo).1.infoAt i =
            if i ∈ s.chain op.parent then (s.infoAt i).apply nInfo
            else s.infoAt i := by
        show (nodeAt (s.push op.parent nInfo).1.nodes i).info = _
        rw [push_nodeAt_old s op.parent nInfo hwf hp i hil]
        by_cases hc : i ∈ s.chain op.parent
        · rw [if_pos hc, if_pos hc]
          rfl
        · rw [if_neg hc, if_neg hc]
          rfl
      rw [hsubdec, hinfo]
      by_cases hc : i ∈ s.chain op.parent
      · rw [if_pos hc, if_pos hc, Finset.sum_insert hnotin, hleaf_new,
          hsum_old i, hg, ← ih hv' i hil, Nat.add_comm]
      · rw [if_neg hc, if_neg hc, hsum_old i, ← ih hv' i hil]
    · have hieq : i = len := by omega
      subst hieq
      have hsub_new : subtree (s.push op.parent nInfo).1 len = {len} := by
        unfold subtree
        rw [push_length, Finset.range_succ, Finset.filter_insert]
        have hmem : len ∈ (s.push op.parent nInfo).1.chain len := by
          rw [hchain_new]
          exact List.mem_cons_self len _
        rw [if_pos hmem, hfilter_eq len]
        have hempty :
            (Finset.range len).filter (fun j => len ∈ s.chain j) = ∅ := by
          apply Finset.filter_false_of_mem
          intro j hj
          intro hmem2
          have hjlt := Finset.mem_range.mp hj
          have := chain_mem_le s.nodes j (wf_parOk s hwf j hjlt) len hmem2
          omega
        rw [hempty]
        rfl
      have hinfo_new : (s.push op.parent nInfo).1.infoAt len = nInfo := by
        show (nodeAt (s.push op.parent nInfo).1.nodes len).info = _
        rw [push_nodeAt_new]
        rfl
      rw [hsub_new, hinfo_new, Finset.sum_singleton, hleaf_new]

theorem getName_concat (path : List String) (name : String) :
    getName (path ++ [name]) = Except.ok name := by
  unfold getName
  rw [List.getLast?_concat]

theorem goPure_shift (parent : Nat) (path : List String) :
    ∀ (items : List (String × Fs)) (es : List Entry) (errs : List FsError),
      readDirGo (fun acc e => (acc.1 ++ [e], acc.2))
          (fun acc er => (acc.1, acc.2 ++ [er])) parent path items (es, errs) =
        (es ++ (readDirGo (fun acc e => (acc.1 ++ [e], acc.2))
            (fun acc er => (acc.1, acc.2 ++ [er])) parent path items
            ([], [])).1,
         errs ++ (readDirGo (fun acc e => (acc.1 ++ [e], acc.2))
            (fun acc er => (acc.1, acc.2 ++ [er])) parent path items
            ([], [])).2) := by
  intro items
  induction items with
  | nil => intro es errs; simp [readDirGo]
  | cons item rest ih =>
    intro es errs
    obtain ⟨name, sub⟩ := item
    show readDirGo _ _ _ _ ((name, sub) :: rest) _ = _
    cases hmeta : itemMeta sub with
    | none => simp [readDirGo, hmeta]
    | some ks =>
      obtain ⟨k, size⟩ := ks
      simp only [readDirGo, hmeta, getName_concat, List.nil_append]
      rw [ih, ih [Entry.mk parent (Info.new name k size) (path ++ [name])] []]
      simp

theorem stGo_shift (parent : Nat) (path : List String) :
    ∀ (items : List (String × Fs)) (src : StSource),
      readDirGo (fun s e => { s with entries := s.entries ++ [e] })
          (fun s er => { s with errors := s.errors ++ [er] })
          parent path items src =
        { entries := src.entries ++ (readDirGo (fun acc e => (acc.1 ++ [e], acc.2))
            (fun acc er => (acc.1, acc.2 ++ [er])) parent path items
            ([], [])).1
          errors := src.errors ++ (readDirGo (fun acc e => (acc.1 ++ [e], acc.2))
            (fun acc er => (acc.1, acc.2 ++ [er])) parent path items
            ([], [])).2 } := by
  intro items
  induction items with
  | nil => intro src; simp [readDirGo]
  | cons item rest ih =>
    intro src
    obtain ⟨name, sub⟩ := item
    show readDirGo _ _ _ _ ((name, sub) :: rest) _ = _
    cases hmeta : itemMeta sub with
    | none => simp [readDirGo, hmeta]
    | some ks =>
      obtain ⟨k, size⟩ := ks
      simp only [readDirGo, hmeta, getName_concat, List.nil_append]
      rw [ih, goPure_shift parent path rest
        [Entry.mk parent (Info.new name k size) (path ++ [name])] []]
      simp

theorem stEnqueue_eq (fs : Fs) (src : StSource) (parent : Nat)
    (path : List String) :
    StSource.enqueue fs src parent path =
      { entries := src.entries ++ (fsReadDir fs parent path).1
        errors := src.errors ++ (fsReadDir fs parent path).2 } := by
  unfold StSource.enqueue fsReadDir readDirCB
  cases hfl : fsLookup fs path with
  | none => simp
  | some sub =>
    cases sub with
    | file size => simp
    | dir size items => exact stGo_shift parent path items src
    | other size => simp
    | denied => simp
    | broken => simp

theorem stNextEntry_concat (es : List Entry) (e : Entry)
    (errs : List FsError) :
    StSource.nextEntry ⟨es ++ [e], errs⟩ = some (e, ⟨es, errs⟩) := by
  unfold StSource.nextEntry
  rw [List.getLast?_concat]
  show some (e, StSource.mk (es ++ [e]).dropLast errs) = _
  rw [List.dropLast_concat]

theorem stNextEntry_none_iff (src : StSource) :
    StSource.nextEntry src = none ↔ src.entries = [] := by
  unfold StSource.nextEntry
  cases h : src.entries.getLast? with
  | none =>
    simp only [true_iff]
    exact List.getLast?_eq_none_iff.mp h
  | some e =>
    simp only [reduceCtorEq, false_iff]
    intro hnil
    rw [hnil] at h
    exact Option.noConfusion h

theorem goPure_cons_ok (parent : Nat) (path : List String) (name : String)
    (sub : Fs) (rest : List (String × Fs)) (k : FileKind) (size : Nat)
    (hmeta : itemMeta sub = some (k, size)) :
    goPure parent path ((name, sub) :: rest) =
      (Entry.mk parent (Info.new name k size) (path ++ [name]) ::
          (goPure parent path rest).1,
        (goPure parent path rest).2) := by
  unfold goPure
  show readDirGo _ _ _ _ ((name, sub) :: rest) _ = _
  simp only [readDirGo, hmeta, getName_concat, List.nil_append]
  rw [goPure_shift parent path rest
    [Entry.mk parent (Info.new name k size) (path ++ [name])] []]
  simp

theorem goPure_no_err_append (parent : Nat) (path : List String) :
    ∀ (good others : List (String × Fs)),
      (goPure parent path good).2 = [] →
      goPure parent path (good ++ others) =
        ((goPure parent path good).1 ++ (goPure parent path others).1,
          (goPure parent path others).2) := by
  intro good
  induction good with
  | nil =>
    intro others _
    simp [goPure, readDirGo]
  | cons item rest ih =>
    intro others herr
    obtain ⟨name, sub⟩ := item
    cases hmeta : itemMeta sub with
    | none =>
      rw [show goPure parent path ((name, sub) :: rest) =
          ([], [FsError.metaFail]) by
        unfold goPure
        show readDirGo _ _ _ _ ((name, sub) :: rest) _ = _
        simp [readDirGo, hmeta]] at herr
      exact absurd herr (by simp)
    | some ks =>
      obtain ⟨k, size⟩ := ks
      rw [goPure_cons_ok parent path name sub rest k size hmeta] at herr ⊢
      have herr' : (goPure parent path rest).2 = [] := herr
      rw [show ((name, sub) :: rest) ++ others =
          (name, sub) :: (rest ++ others) from rfl,
        goPure_cons_ok parent path name sub (rest ++ others) k size hmeta,
        ih others herr']
      simp

/-- C1: the claim says the Parallel source's `next_entry` is a non-blocking
poll that returns an absent result on an empty channel and never fails or
panics there. The code is
`self.handle_err(self.rx_entries.try_recv().unwrap())`: on an empty channel
`try_recv` returns `Err(TryRecvError::Empty)` (the source still owns the
sender, so the channel can never be disconnected) and the `unwrap` panics.
This theorem evaluates the embedded code on every state with an empty
channel: the result is a panic, not `none`. -/
theorem c1_mt_next_entry_panics_on_empty (errs : List FsError)
    (tasks : List (Nat × List String)) (running : Bool) :
    MtSource.nextEntry ⟨[], errs, tasks, running⟩ =
      Except.error Panic.panic := rfl

/-- C2 counterexample: on the fixture `root/(a.txt, 10 bytes)` the driver
has one entry buffered after `begin`; a `read_for` whose budget is already
exceeded (the zero budget — `now.elapsed() < dur` is false at every check)
dequeues that entry and then discards it: the arena is unchanged
(`Stats.new`, zero files), the applied-entry count is 0, yet the buffer is
now empty — the dequeued entry was lost to the budget check, contradicting
the claim that it is still fully applied. -/
theorem c2_counterexample :
    (StSource.init.enqueue (Fs.dir 0 [("a", Fs.file 10)]) 0 []).entries ≠ [] ∧
    duRead (Fs.dir 0 [("a", Fs.file 10)]) zeroBudget 5 Stats.new
        (StSource.init.enqueue (Fs.dir 0 [("a", Fs.file 10)]) 0 []) 0 =
      (Stats.new, StSource.mk [] [], 0) ∧
    Stats.new.head.info.files = 0 := by
  refine ⟨by decide, by decide, by decide⟩

/-- C2 amended: when the time budget is found exceeded (the predicate
`read_for` hands to `read` evaluates to false, as it always does for a zero
budget), the entry that has already been dequeued is discarded without
being applied — the arena, error list and count are unchanged, the entry is
gone from the buffer, and draining stops. The budget is checked only
between entries, so an entry that passes the check is applied in full. -/
theorem c2_read_discards_dequeued_entry_on_exceeded_budget (fs : Fs)
    (fuel : Nat) (stats : Stats) (es : List Entry) (e : Entry)
    (errs : List FsError) (c : Nat) :
    duRead fs zeroBudget (fuel + 1) stats ⟨es ++ [e], errs⟩ c =
      (stats, ⟨es, errs⟩, c) := by
  show (match StSource.nextEntry ⟨es ++ [e], errs⟩ with
    | none => (stats, StSource.mk (es ++ [e]) errs, c)
    | some (entry, src1) =>
      if zeroBudget stats src1 then
        let isDir := entry.info.kind = FileKind.Dir
        let r := stats.push entry.parent entry.info
        let src2 := if isDir then src1.enqueue fs r.2 entry.path else src1
        duRead fs zeroBudget fuel r.1 src2 (c + 1)
      else (stats, src1, c)) = (stats, ⟨es, errs⟩, c)
  rw [stNextEntry_concat]
  simp [zeroBudget]

/-- C3 counterexample: in a directory whose first item has a metadata
failure and whose second item is a healthy 5-byte file `b`, `read_dir`
reports the metadata error and produces no entry at all — the `handle!`
macro `return`s out of `read_dir` on the per-item failure, so the
remaining healthy item of the same directory is never processed,
contradicting the claim. -/
theorem c3_counterexample :
    fsReadDir (Fs.dir 0 [("a", Fs.broken), ("b", Fs.file 5)]) 0 [] =
      ([], [FsError.metaFail]) ∧
    ¬ ∃ e, e ∈ (fsReadDir (Fs.dir 0 [("a", Fs.broken), ("b", Fs.file 5)])
        0 []).1 ∧ e.path = ["b"] := by
  refine ⟨rfl, ?_⟩
  rintro ⟨e, hmem, _⟩
  rw [show (fsReadDir (Fs.dir 0 [("a", Fs.broken), ("b", Fs.file 5)])
      0 []).1 = [] from rfl] at hmem
  exact absurd hmem (List.not_mem_nil e)

/-- C3 amended: a per-item metadata failure is reported individually via
`on_error` and ends the listing of that directory — the items already
listed keep their entries, the items after the failing one are skipped, and
exactly one error is reported; a directory-open failure likewise reports
exactly one error and produces no entries. -/
theorem c3_item_failure_reports_and_aborts (sz : Nat)
    (good rest : List (String × Fs)) (nm : String) (parent : Nat) (fs : Fs)
    (path : List String)
    (hgood : (goPure parent [] good).2 = [])
    (hdenied : fsLookup fs path = some Fs.denied) :
    fsReadDir (Fs.dir sz (good ++ (nm, Fs.broken) :: rest)) parent [] =
      ((goPure parent [] good).1, [FsError.metaFail]) ∧
    fsReadDir fs parent path = ([], [FsError.permissionDenied]) := by
  constructor
  · show goPure parent [] (good ++ (nm, Fs.broken) :: rest) = _
    rw [goPure_no_err_append parent [] good ((nm, Fs.broken) :: rest) hgood]
    rw [show goPure parent [] ((nm, Fs.broken) :: rest) =
        ([], [FsError.metaFail]) from rfl]
    simp
  · unfold fsReadDir readDirCB
    rw [hdenied]
    rfl

/-- C3 witness: a directory with one healthy 3-byte file, then a
metadata-failing item, then another healthy file; and a separate fixture
whose `locked` subdirectory fails to open. -/
theorem c3_witness :
    (goPure 0 [] [("a", Fs.file 3)]).2 = [] ∧
    fsLookup (Fs.dir 0 [("locked", Fs.denied)]) ["locked"] =
      some Fs.denied ∧
    (fsReadDir (Fs.dir 0 ([("a", Fs.file 3)] ++
        ("x", Fs.broken) :: [("c", Fs.file 7)])) 0 [] =
      ((goPure 0 [] [("a", Fs.file 3)]).1, [FsError.metaFail]) ∧
    fsReadDir (Fs.dir 0 [("locked", Fs.denied)]) 0 ["locked"] =
      ([], [FsError.permissionDenied])) :=
  ⟨by decide, rfl,
    c3_item_failure_reports_and_aborts 0 [("a", Fs.file 3)]
      [("c", Fs.file 7)] "x" 0 (Fs.dir 0 [("locked", Fs.denied)])
      ["locked"] (by decide) rfl⟩

/-- C4 counterexample: a full sequential traversal of an empty directory
leaves the root aggregate at `size=0, files=0, dirs=0, other=1` with no
errors — the freshly created arena's root node is built from
`Info::default()`, whose kind is `Other`, so the root counts itself as an
'other' item, not as a directory; the claimed `dirs=1, other=0` is false. -/
theorem c4_counterexample :
    (seqRun (Fs.dir 0 []) 3).2.1.entries = [] ∧
    (seqRun (Fs.dir 0 []) 3).2.1.errors = [] ∧
    ¬ ((seqRun (Fs.dir 0 []) 3).1.head.info.dirs = 1 ∧
       (seqRun (Fs.dir 0 []) 3).1.head.info.other = 0) := by
  refine ⟨by decide, by decide, ?_⟩
  intro h
  have : (seqRun (Fs.dir 0 []) 3).1.head.info.dirs = 0 := by decide
  omega

/-- C4 amended: after a completed traversal of an empty directory the
arena is exactly the fresh arena, whose root aggregate is `size=0,
files=0, dirs=0, other=1` — the root node is seeded from `Info::default()`
(kind `Other`), counting itself in `other`, not in `dirs` — with an empty
entry buffer and zero recorded errors. -/
theorem c4_empty_dir_root_aggregate :
    (seqRun (Fs.dir 0 []) 3).1 = Stats.new ∧
    Stats.new.head.info.size = 0 ∧
    Stats.new.head.info.files = 0 ∧
    Stats.new.head.info.dirs = 0 ∧
    Stats.new.head.info.other = 1 ∧
    Stats.new.head.info.kind = FileKind.Other ∧
    (seqRun (Fs.dir 0 []) 3).2.1.entries = [] ∧
    (seqRun (Fs.dir 0 []) 3).2.1.errors = [] := by
  refine ⟨by decide, by decide, by decide, by decide, by decide, by decide,
    by decide, by decide⟩

theorem leafInfo_counters (ops : List PushOp) (j : Nat) :
    (leafInfo ops j).files =
        (if (leafInfo ops j).kind = FileKind.File then 1 else 0) ∧
    (leafInfo ops j).dirs =
        (if (leafInfo ops j).kind = FileKind.Dir then 1 else 0) ∧
    (leafInfo ops j).other =
        (if (leafInfo ops j).kind = FileKind.Other then 1 else 0) := by
  cases j with
  | zero => exact ⟨rfl, rfl, rfl⟩
  | succ m => exact ⟨rfl, rfl, rfl⟩

/-- C5: in every arena reachable by a sequence of pushes of freshly
produced infos (each op's parent already minted), every node's aggregate
equals its own leaf contribution — its pushed size, and a 1 in exactly the
counter matching its kind — summed with the same contributions of all its
descendants. `subtree` is the descendant-or-self set read off the final
parent links, and `leafInfo` is the info each node was pushed with, so the
incremental maintenance of `Stats::push` realises the full recomputed
sums. -/
theorem c5_aggregation_invariant (ops : List PushOp) (hv : ValidOps ops) :
    ∀ i, i < (build ops).nodes.length →
      ((build ops).infoAt i).size =
          (∑ j ∈ subtree (build ops) i, (leafInfo ops j).size) ∧
      ((build ops).infoAt i).files =
          (∑ j ∈ subtree (build ops) i,
            if (leafInfo ops j).kind = FileKind.File then 1 else 0) ∧
      ((build ops).infoAt i).dirs =
          (∑ j ∈ subtree (build ops) i,
            if (leafInfo ops j).kind = FileKind.Dir then 1 else 0) ∧
      ((build ops).infoAt i).other =
          (∑ j ∈ subtree (build ops) i,
            if (leafInfo ops j).kind = FileKind.Other then 1 else 0) := by
  intro i hi
  refine ⟨build_inv (fun a => a.size) (fun a b => rfl) ops hv i hi, ?_, ?_, ?_⟩
  · rw [build_inv (fun a => a.files) (fun a b => rfl) ops hv i hi]
    exact Finset.sum_congr rfl (fun j _ => (leafInfo_counters ops j).1)
  · rw [build_inv (fun a => a.dirs) (fun a b => rfl) ops hv i hi]
    exact Finset.sum_congr rfl (fun j _ => (leafInfo_counters ops j).2.1)
  · rw [build_inv (fun a => a.other) (fun a b => rfl) ops hv i hi]
    exact Finset.sum_congr rfl (fun j _ => (leafInfo_counters ops j).2.2)

/-- C5 witness: the spec's own scenario — `root/(a.txt 10 bytes,
sub/(b.txt 5 bytes))` as a push history — satisfies the invariant at every
node. -/
theorem c5_witness :
    ValidOps [⟨0, "a", FileKind.File, 10⟩, ⟨0, "sub", FileKind.Dir, 0⟩,
      ⟨2, "b", FileKind.File, 5⟩] ∧
    (∀ i, i < (build [⟨0, "a", FileKind.File, 10⟩,
        ⟨0, "sub", FileKind.Dir, 0⟩,
        ⟨2, "b", FileKind.File, 5⟩]).nodes.length →
      ((build [⟨0, "a", FileKind.File, 10⟩, ⟨0, "sub", FileKind.Dir, 0⟩,
          ⟨2, "b", FileKind.File, 5⟩]).infoAt i).size =
          (∑ j ∈ subtree (build [⟨0, "a", FileKind.File, 10⟩,
            ⟨0, "sub", FileKind.Dir, 0⟩, ⟨2, "b", FileKind.File, 5⟩]) i,
            (leafInfo [⟨0, "a", FileKind.File, 10⟩,
              ⟨0, "sub", FileKind.Dir, 0⟩,
              ⟨2, "b", FileKind.File, 5⟩] j).size) ∧
      ((build [⟨0, "a", FileKind.File, 10⟩, ⟨0, "sub", FileKind.Dir, 0⟩,
          ⟨2, "b", FileKind.File, 5⟩]).infoAt i).files =
          (∑ j ∈ subtree (build [⟨0, "a", FileKind.File, 10⟩,
            ⟨0, "sub", FileKind.Dir, 0⟩, ⟨2, "b", FileKind.File, 5⟩]) i,
            if (leafInfo [⟨0, "a", FileKind.File, 10⟩,
              ⟨0, "sub", FileKind.Dir, 0⟩,
              ⟨2, "b", FileKind.File, 5⟩] j).kind = FileKind.File
            then 1 else 0) ∧
      ((build [⟨0, "a", FileKind.File, 10⟩, ⟨0, "sub", FileKind.Dir, 0⟩,
          ⟨2, "b", FileKind.File, 5⟩]).infoAt i).dirs =
          (∑ j ∈ subtree (build [⟨0, "a", FileKind.File, 10⟩,
            ⟨0, "sub", FileKind.Dir, 0⟩, ⟨2, "b", FileKind.File, 5⟩]) i,
            if (leafInfo [⟨0, "a", FileKind.File, 10⟩,
              ⟨0, "sub", FileKind.Dir, 0⟩,
              ⟨2, "b", FileKind.File, 5⟩] j).kind = FileKind.Dir
            then 1 else 0) ∧
      ((build [⟨0, "a", FileKind.File, 10⟩, ⟨0, "sub", FileKind.Dir, 0⟩,
          ⟨2, "b", FileKind.File, 5⟩]).infoAt i).other =
          (∑ j ∈ subtree (build [⟨0, "a", FileKind.File, 10⟩,
            ⟨0, "sub", FileKind.Dir, 0⟩, ⟨2, "b", FileKind.File, 5⟩]) i,
            if (leafInfo [⟨0, "a", FileKind.File, 10⟩,
              ⟨0, "sub", FileKind.Dir, 0⟩,
              ⟨2, "b", FileKind.File, 5⟩] j).kind = FileKind.Other
            then 1 else 0)) :=
  ⟨by decide,
    c5_aggregation_invariant [⟨0, "a", FileKind.File, 10⟩,
      ⟨0, "sub", FileKind.Dir, 0⟩, ⟨2, "b", FileKind.File, 5⟩] (by decide)⟩

/-- C6: on a well-formed arena, `push(parent, info)` returns the next
sequential id — the node count before the call — appends that id to the
parent's child list, and applies `info` exactly once to every node on the
ancestor-or-self chain of `parent` (the chain has no duplicates, its
members are exactly the iterated parent links of `parent`, and it contains
the root, detected as the node equal to its own parent); nodes off the
chain keep their info. -/
theorem c6_push_spec (s : Stats) (p : Nat) (info : Info) (hwf : s.WF)
    (hp : p < s.nodes.length) :
    (s.push p info).2 = s.nodes.length ∧
    (nodeAt (s.push p info).1.nodes p).children =
      (nodeAt s.nodes p).children ++ [s.nodes.length] ∧
    (∀ i, i < s.nodes.length → i ∈ s.chain p →
      (nodeAt (s.push p info).1.nodes i).info =
        (nodeAt s.nodes i).info.apply info) ∧
    (∀ i, i < s.nodes.length → i ∉ s.chain p →
      (nodeAt (s.push p info).1.nodes i).info = (nodeAt s.nodes i).info) ∧
    (s.chain p).Nodup ∧
    (∀ i, i ∈ s.chain p ↔ ∃ n, iterPar s.nodes n p = i) ∧
    (∃ r, r ∈ s.chain p ∧ parentAt s.nodes r = r) := by
  refine ⟨rfl, ?_, ?_, ?_,
    chain_nodup s.nodes p (wf_parOk s hwf p hp),
    fun i => chain_mem_iff_iterPar s.nodes p (wf_parOk s hwf p hp) i,
    chain_root_exists s.nodes p (wf_parOk s hwf p hp)⟩
  · rw [push_nodeAt_old s p info hwf hp p hp]
    simp
  · intro i hi hmem
    rw [push_nodeAt_old s p info hwf hp i hi]
    simp [hmem]
  · intro i hi hmem
    rw [push_nodeAt_old s p info hwf hp i hi]
    simp [hmem]

/-- C6 witness: pushing a 10-byte file under the root of the fresh
arena. -/
theorem c6_witness :
    Stats.new.WF ∧ 0 < Stats.new.nodes.length ∧
    ((Stats.new.push 0 (Info.new "a" FileKind.File 10)).2 =
        Stats.new.nodes.length ∧
      (nodeAt (Stats.new.push 0 (Info.new "a" FileKind.File 10)).1.nodes
          0).children =
        (nodeAt Stats.new.nodes 0).children ++ [Stats.new.nodes.length] ∧
      (∀ i, i < Stats.new.nodes.length → i ∈ Stats.new.chain 0 →
        (nodeAt (Stats.new.push 0
            (Info.new "a" FileKind.File 10)).1.nodes i).info =
          (nodeAt Stats.new.nodes i).info.apply
            (Info.new "a" FileKind.File 10)) ∧
      (∀ i, i < Stats.new.nodes.length → i ∉ Stats.new.chain 0 →
        (nodeAt (Stats.new.push 0
            (Info.new "a" FileKind.File 10)).1.nodes i).info =
          (nodeAt Stats.new.nodes i).info) ∧
      (Stats.new.chain 0).Nodup ∧
      (∀ i, i ∈ Stats.new.chain 0 ↔ ∃ n, iterPar Stats.new.nodes n 0 = i) ∧
      (∃ r, r ∈ Stats.new.chain 0 ∧ parentAt Stats.new.nodes r = r)) :=
  ⟨by decide, by decide,
    c6_push_spec Stats.new 0 (Info.new "a" FileKind.File 10)
      (by decide) (by decide)⟩

/-- C9: on a well-formed arena, `push(parent, info)` grows the node list
by exactly one (the new node, holding `info` and the parent link, at the
next index); every existing node keeps its parent link, every existing
node other than `parent` keeps its child list, and every existing node off
`parent`'s ancestor-or-self chain keeps its info — nothing is removed or
reindexed. -/
theorem c9_push_frame (s : Stats) (p : Nat) (info : Info) (hwf : s.WF)
    (hp : p < s.nodes.length) :
    (s.push p info).1.nodes.length = s.nodes.length + 1 ∧
    (∀ i, i < s.nodes.length →
      (nodeAt (s.push p info).1.nodes i).parent =
        (nodeAt s.nodes i).parent) ∧
    (∀ i, i < s.nodes.length → i ≠ p →
      (nodeAt (s.push p info).1.nodes i).children =
        (nodeAt s.nodes i).children) ∧
    (∀ i, i < s.nodes.length → i ∉ s.chain p →
      (nodeAt (s.push p info).1.nodes i).info = (nodeAt s.nodes i).info) ∧
    nodeAt (s.push p info).1.nodes s.nodes.length = Node.new info p := by
  refine ⟨push_length s p info, ?_, ?_, ?_, push_nodeAt_new s p info⟩
  · intro i hi
    rw [push_nodeAt_old s p info hwf hp i hi]
  · intro i hi hne
    rw [push_nodeAt_old s p info hwf hp i hi]
    simp [hne]
  · intro i hi hmem
    rw [push_nodeAt_old s p info hwf hp i hi]
    simp [hmem]

/-- C9 witness: pushing a 7-byte file under the root of the fresh
arena. -/
theorem c9_witness :
    Stats.new.WF ∧ 0 < Stats.new.nodes.length ∧
    ((Stats.new.push 0 (Info.new "f" FileKind.File 7)).1.nodes.length =
        Stats.new.nodes.length + 1 ∧
      (∀ i, i < Stats.new.nodes.length →
        (nodeAt (Stats.new.push 0
            (Info.new "f" FileKind.File 7)).1.nodes i).parent =
          (nodeAt Stats.new.nodes i).parent) ∧
      (∀ i, i < Stats.new.nodes.length → i ≠ 0 →
        (nodeAt (Stats.new.push 0
            (Info.new "f" FileKind.File 7)).1.nodes i).children =
          (nodeAt Stats.new.nodes i).children) ∧
      (∀ i, i < Stats.new.nodes.length → i ∉ Stats.new.chain 0 →
        (nodeAt (Stats.new.push 0
            (Info.new "f" FileKind.File 7)).1.nodes i).info =
          (nodeAt Stats.new.nodes i).info) ∧
      nodeAt (Stats.new.push 0
          (Info.new "f" FileKind.File 7)).1.nodes Stats.new.nodes.length =
        Node.new (Info.new "f" FileKind.File 7) 0) :=
  ⟨by decide, by decide,
    c9_push_frame Stats.new 0 (Info.new "f" FileKind.File 7)
      (by decide) (by decide)⟩

/-- C7: the claim of Sequential/Parallel parity fails on the code. On the
fixture `root/(sub/(b.txt 5 bytes))` the Sequential source completes the
traversal — the buffer drains, two entries are applied, the root aggregate
is `size=5, files=1, dirs=1, other=1` with no errors — while the driver
running on the Parallel source panics: `begin()` joins all workers after
they process the single queued root task, the `sub` task enqueued later by
the driver is never executed, and once the channel is drained `next_entry`
panics on `try_recv().unwrap()`. The two sources therefore cannot produce
isomorphic arenas on this fixture. -/
theorem c7_parity_fails :
    (seqRun (Fs.dir 0 [("sub", Fs.dir 0 [("b", Fs.file 5)])]) 9).1.head.info.size = 5 ∧
    (seqRun (Fs.dir 0 [("sub", Fs.dir 0 [("b", Fs.file 5)])]) 9).1.head.info.files = 1 ∧
    (seqRun (Fs.dir 0 [("sub", Fs.dir 0 [("b", Fs.file 5)])]) 9).1.head.info.dirs = 1 ∧
    (seqRun (Fs.dir 0 [("sub", Fs.dir 0 [("b", Fs.file 5)])]) 9).1.head.info.other = 1 ∧
    (seqRun (Fs.dir 0 [("sub", Fs.dir 0 [("b", Fs.file 5)])]) 9).2.1.entries = [] ∧
    (seqRun (Fs.dir 0 [("sub", Fs.dir 0 [("b", Fs.file 5)])]) 9).2.1.errors = [] ∧
    (seqRun (Fs.dir 0 [("sub", Fs.dir 0 [("b", Fs.file 5)])]) 9).2.2 = 2 ∧
    mtRun (Fs.dir 0 [("sub", Fs.dir 0 [("b", Fs.file 5)])]) 9 =
      Except.error Panic.panic := by
  refine ⟨by decide, by decide, by decide, by decide, by decide, by decide,
    by decide, rfl⟩

/-- C8: the Sequential source's `enqueue` performs the directory read
immediately, appending exactly the entries `read_dir` produces (in
production order) to its entry stack and exactly the failures to its error
list; `next_entry` pops the most recently buffered entry (`Vec::pop`, so
last-in-first-out), and returns an absent result exactly when the buffer
is empty. -/
theorem c8_sequential_source (fs : Fs) (src : StSource) (parent : Nat)
    (path : List String) (es : List Entry) (e : Entry)
    (errs : List FsError) :
    StSource.enqueue fs src parent path =
      { entries := src.entries ++ (fsReadDir fs parent path).1
        errors := src.errors ++ (fsReadDir fs parent path).2 } ∧
    StSource.nextEntry ⟨es ++ [e], errs⟩ = some (e, ⟨es, errs⟩) ∧
    (StSource.nextEntry src = none ↔ src.entries = []) :=
  ⟨stEnqueue_eq fs src parent path, stNextEntry_concat es e errs,
    stNextEntry_none_iff src⟩

/-- C10: when the Parallel source's `next_entry` receives an error item
from the channel, `handle_err` appends the error to the source's error
list and yields an absent result; consequently one call of the driver's
`read` loop stops right there — even when further successful entries
remain buffered behind the error item (`rest` is arbitrary), they are left
in the channel, the arena and count are untouched, and the error is
observable in `errors()` afterwards. -/
theorem c10_error_item_stops_read (er : FsError) (rest : List ChanItem)
    (errs : List FsError) (tasks : List (Nat × List String)) (r : Bool)
    (fs : Fs) (pred : Stats → MtSource → Bool) (fuel : Nat) (stats : Stats)
    (c : Nat) :
    MtSource.nextEntry ⟨ChanItem.errItem er :: rest, errs, tasks, r⟩ =
      Except.ok (none, ⟨rest, errs ++ [er], tasks, r⟩) ∧
    duReadMt fs pred (fuel + 1) stats
        ⟨ChanItem.errItem er :: rest, errs, tasks, r⟩ c =
      Except.ok (stats, ⟨rest, errs ++ [er], tasks, r⟩, c) ∧
    er ∈ (MtSource.mk rest (errs ++ [er]) tasks r).errors := by
  refine ⟨rfl, rfl, ?_⟩
  show er ∈ errs ++ [er]
  simp
